import Mathlib

/-!
Shallow embedding of `src/hydra-eval-jobs/hydra-eval-jobs.cc` (hydra's job
discovery tool).  The program walks a forced, auto-applied Nix value tree,
classifies each node (derivation / plain attribute set / null / anything
else), extracts a job descriptor per derivation node, resolves aggregate
constituents through the string-context side channel, registers GC roots
idempotently, and records recoverable evaluation errors per attribute path.

External collaborators (the Nix evaluator, `DrvInfo`, the store, the JSON
writer) are modelled at their interface, following the spec's collaborator
contracts: values are represented post-forcing as a tagged tree, `DrvInfo`
queries become record fields, the streamed JSON report becomes an ordered
association list that is emitted once at the end of a successful run, and
the exception taxonomy follows the spec (recoverable `EvalError` caught by
the per-path isolator in `findJobs`; `TypeError` and interruption fatal).
-/

set_option maxHeartbeats 1000000

namespace HydraEvalJobs

/-- Errors that evaluation steps can raise.  `eval` models nix `EvalError`
(the recoverable kind thrown for missing `system` / `constituents`),
`type` models `TypeError` (fatal per the spec's taxonomy), `interrupt`
models `Interrupted` raised by `checkInterrupt` (fatal, never caught). -/
inductive Err where
  | eval (msg : String)
  | type (msg : String)
  | interrupt
  deriving DecidableEq

/-- Is the error one that escapes the per-path isolator? -/
def isFatalErr : Err → Bool
  | .eval _ => false
  | _ => true

/- ### Metadata values (`meta` attributes as seen through `DrvInfo`) -/

mutual
/-- A forced metadata value, as inspected by `queryMetaStrings` and the
`DrvInfo::queryMeta*` collaborator methods: strings, integers, booleans,
lists, attribute sets (of which only the optional `shortName` member is
ever inspected), and anything else (`other`). -/
inductive MetaVal where
  | str (s : String)
  | int (n : Int)
  | boolV (b : Bool)
  | list (xs : MetaList)
  | attrs (shortName : MetaShort)
  | other

/-- A list of metadata values. -/
inductive MetaList where
  | mnil
  | mcons (hd : MetaVal) (tl : MetaList)

/-- The optional `shortName` member of a metadata attribute set. -/
inductive MetaShort where
  | noShort
  | withShort (v : MetaVal)
end

/-- Association lookup in a meta attribute table (models `DrvInfo::queryMeta`). -/
def lookupMeta : List (String × MetaVal) → String → Option MetaVal
  | [], _ => none
  | (n, v) :: tl, name => if n = name then some v else lookupMeta tl name

/-- Models nix `concatStringsSep`. -/
def concatStringsSep (sep : String) (l : List String) : String :=
  String.intercalate sep l

/-- Models `EvalState::forceString` as used on the `shortName` member:
succeeds exactly on string values, raises a (fatal) type error otherwise. -/
def forceString : MetaVal → Except Err String
  | .str s => .ok s
  | _ => .error (Err.type "value is not a string")

mutual
/-- The recursive lambda `rec` inside `queryMetaStrings`: a string
contributes itself, a list contributes each element in order, an attribute
set contributes the forced string of its `shortName` member if present,
everything else contributes nothing. -/
def metaRec : MetaVal → Except Err (List String)
  | .str s => .ok [s]
  | .int _ => .ok []
  | .boolV _ => .ok []
  | .list xs => metaRecList xs
  | .attrs .noShort => .ok []
  | .attrs (.withShort v) =>
      match forceString v with
      | .error e => .error e
      | .ok s => .ok [s]
  | .other => .ok []

/-- Element-wise traversal of a metadata list by `metaRec`. -/
def metaRecList : MetaList → Except Err (List String)
  | .mnil => .ok []
  | .mcons x xs =>
      match metaRec x with
      | .error e => .error e
      | .ok a =>
          match metaRecList xs with
          | .error e => .error e
          | .ok b => .ok (a ++ b)
end

/-- `queryMetaStrings`: look the name up in the meta table, flatten via
`metaRec`, and comma-space-join the collected strings (the absent case
joins the empty collection, yielding the empty string). -/
def queryMetaStrings (meta : List (String × MetaVal)) (name : String) :
    Except Err String :=
  match lookupMeta meta name with
  | none => .ok (concatStringsSep ", " [])
  | some v =>
      match metaRec v with
      | .error e => .error e
      | .ok res => .ok (concatStringsSep ", " res)

/-- Models `DrvInfo::queryMetaString`: the string value if the meta
attribute is present and a string, `""` otherwise. -/
def queryMetaString (meta : List (String × MetaVal)) (name : String) : String :=
  match lookupMeta meta name with
  | some (.str s) => s
  | _ => ""

/-- Models `DrvInfo::queryMetaInt`: the integer value if present and an
integer, the supplied default otherwise. -/
def queryMetaInt (meta : List (String × MetaVal)) (name : String) (dflt : Int) : Int :=
  match lookupMeta meta name with
  | some (.int n) => n
  | _ => dflt

/-- Models `DrvInfo::queryMetaBool`: the boolean value if present and a
boolean, the supplied default otherwise. -/
def queryMetaBool (meta : List (String × MetaVal)) (name : String) (dflt : Bool) : Bool :=
  match lookupMeta meta name with
  | some (.boolV b) => b
  | _ => dflt

/- ### Values and the derivation capability -/

/-- The `DrvInfo` capability of a derivation value, as queried by the
extractor: `queryName`, `querySystem` (already defaulted to `"unknown"`
when the attribute is missing, as `DrvInfo::querySystem` does),
`queryDrvPath`, `queryOutputs` (ordered name-to-path mapping) and the
meta attribute table backing the `queryMeta*` calls. -/
structure DrvData where
  name : String
  system : String
  drvPath : String
  outputs : List (String × String)
  meta : List (String × MetaVal)

mutual
/-- A forced, auto-applied value as classified by `findJobsWrapped`:
an attribute set (carrying `some` derivation capability exactly when
`getDerivation` succeeds, which for this call pattern coincides with
`isDerivation`), `null`, a boolean, a string carrying its context tags
(the provenance side channel of `coerceToString`), or any other shape
(numbers, functions, ...), which the walker cannot handle. -/
inductive NixValue where
  | attrs (drvI : Option DrvData) (children : AttrList)
  | nullV
  | boolV (b : Bool)
  | strV (s : String) (ctx : List String)
  | otherV (descr : String)

/-- The ordered bindings of an attribute set (nix iterates them in the
set's natural order). -/
inductive AttrList where
  | anil
  | acons (name : String) (v : NixValue) (tl : AttrList)
end

/-- Models `Bindings::find`: look an attribute up by name. -/
def findAttr : AttrList → String → Option NixValue
  | .anil, _ => none
  | .acons n v tl, name => if n = name then some v else findAttr tl name

/-- Models `EvalState::forceBool` (used on `_hydraAggregate`): succeeds on
booleans, raises a fatal type error otherwise. -/
def forceBool : NixValue → Except Err Bool
  | .boolV b => .ok b
  | _ => .error (Err.type "value is not a Boolean")

/-- Models `EvalState::coerceToString(pos, v, context, true, false)` as
used on the `constituents` attribute: returns the coerced string together
with the context tags collected as a side effect.  Strings carry their
context; null and booleans coerce contextlessly (coerceMore behaviour);
other shapes fail with a type error.  (The deep coercion of derivations
and lists happens inside the evaluator collaborator; its result is
represented here as an already-coerced string-with-context value.) -/
def coerceToString : NixValue → Except Err (String × List String)
  | .strV s ctx => .ok (s, ctx)
  | .nullV => .ok ("", [])
  | .boolV b => .ok (if b then "1" else "", [])
  | _ => .error (Err.type "cannot coerce the value to a string")

/- ### Aggregate constituents -/

/-- Does the context tag start with `'!'` (the test `i.at(0) == '!'`)? -/
def bangTag (i : String) : Bool :=
  match i.data with
  | c :: _ => decide (c = '!')
  | [] => false

/-- Drop characters up to and including the first `'!'`, or report that
none occurs.  Used to model `i.find("!", 1)` followed by the substring
from the next position. -/
def stripAfterBang : List Char → Option (List Char)
  | [] => none
  | c :: cs => if c = '!' then some cs else stripAfterBang cs

/-- Models `string(i, index + 1)` where `index = i.find("!", 1)`: the
suffix after the second `'!'`; when no second `'!'` exists, `index` is
`npos` and `npos + 1` wraps to `0`, so the whole tag is returned. -/
def stripTag (i : String) : String :=
  match stripAfterBang i.data.tail with
  | some cs => String.mk cs
  | none => i

/-- Ordered insertion without duplicates: models `std::set<string>::insert`
on a `PathSet` (kept sorted by the lexicographic string order, an element
already present is not inserted again). -/
def setInsert (x : String) : List String → List String
  | [] => [x]
  | y :: ys =>
      if x < y then x :: y :: ys
      else if y < x then y :: setInsert x ys
      else y :: ys

/-- The `drvs` path set of the aggregate block: every context tag whose
first character is `'!'` is stripped past its second `'!'` and inserted
into an ordered set. -/
def aggregateConstituents (ctx : List String) : List String :=
  ctx.foldl (fun acc i => if bangTag i then setInsert (stripTag i) acc else acc) []

/- ### The job descriptor -/

/-- One report entry for a derivation node: the attributes written into
`res` (and the nested `outputs` object), in source order. -/
structure JobRecord where
  nixName : String
  system : String
  drvPath : String
  description : String
  license : String
  homepage : String
  maintainers : String
  schedulingPriority : Int
  timeout : Int
  maxSilent : Int
  isChannel : Bool
  constituents : Option String
  outputs : List (String × String)
  deriving DecidableEq

/-- The aggregate block (source lines 90-105): if `_hydraAggregate` is
present and forces to `true`, require a `constituents` attribute, coerce
it to a string collecting context, and space-join the stripped tag set;
otherwise contribute no `constituents` field. -/
def aggregateField (children : AttrList) : Except Err (Option String) :=
  match findAttr children "_hydraAggregate" with
  | none => .ok none
  | some av =>
      match forceBool av with
      | .error e => .error e
      | .ok false => .ok none
      | .ok true =>
          match findAttr children "constituents" with
          | none => .error (Err.eval "derivation must have a ‘constituents’ attribute")
          | some cv =>
              match coerceToString cv with
              | .error e => .error e
              | .ok sc => .ok (some (concatStringsSep " " (aggregateConstituents sc.2)))

/-- The extraction performed for a derivation node (source lines 69-105
and 116-118), in source throw order: the `system` check first, then the
meta queries (`license` and `maintainers` may raise through `forceString`),
then the aggregate block; on success the fully populated record. -/
def evalJob (d : DrvData) (children : AttrList) : Except Err JobRecord :=
  if d.system = "unknown" then
    .error (Err.eval "derivation must have a ‘system’ attribute")
  else
    match queryMetaStrings d.meta "license" with
    | .error e => .error e
    | .ok license =>
        match queryMetaStrings d.meta "maintainers" with
        | .error e => .error e
        | .ok maintainers =>
            match aggregateField children with
            | .error e => .error e
            | .ok constituents =>
                .ok { nixName := d.name
                      system := d.system
                      drvPath := d.drvPath
                      description := queryMetaString d.meta "description"
                      license := license
                      homepage := queryMetaString d.meta "homepage"
                      maintainers := maintainers
                      schedulingPriority := queryMetaInt d.meta "schedulingPriority" 100
                      timeout := queryMetaInt d.meta "timeout" 36000
                      maxSilent := queryMetaInt d.meta "maxSilent" 7200
                      isChannel := queryMetaBool d.meta "isHydraChannel" false
                      constituents := constituents
                      outputs := d.outputs }

/-- The job record produced for an aggregate-flagged derivation node whose
`license` and `maintainers` metadata flatten to the given strings and whose
`constituents` coercion collected the given context tags. -/
def aggJobRecord (d : DrvData) (lic mnt : String) (ctx : List String) : JobRecord :=
  { nixName := d.name
    system := d.system
    drvPath := d.drvPath
    description := queryMetaString d.meta "description"
    license := lic
    homepage := queryMetaString d.meta "homepage"
    maintainers := mnt
    schedulingPriority := queryMetaInt d.meta "schedulingPriority" 100
    timeout := queryMetaInt d.meta "timeout" 36000
    maxSilent := queryMetaInt d.meta "maxSilent" 7200
    isChannel := queryMetaBool d.meta "isHydraChannel" false
    constituents := some (concatStringsSep " " (aggregateConstituents ctx))
    outputs := d.outputs }

/- ### GC roots -/

/-- Models nix `baseNameOf`: everything after the last `'/'` (derivation
paths never end in a slash, so the trailing-slash special case of the
original is irrelevant here). -/
def baseNameOf (p : String) : String :=
  String.mk ((p.data.reverse.takeWhile (fun c => c ≠ '/')).reverse)

/-- Process-wide configuration: the `--gc-roots-dir` argument, whether the
store is a `LocalFSStore` (the `dynamic_pointer_cast` succeeds), and
whether an interruption has been requested (`checkInterrupt`). -/
structure Config where
  gcRootsDir : String
  hasLocalStore : Bool
  interrupted : Bool

/-- The filesystem and store state touched by GC-root registration:
the set of existing filesystem paths (probed by `pathExists`) and the log
of `addPermRoot` calls performed, newest first. -/
structure GcState where
  fs : List String
  writes : List (String × String)
  deriving DecidableEq

/-- The root link path computed for a derivation path. -/
def rootPathFor (cfg : Config) (drvPath : String) : String :=
  cfg.gcRootsDir ++ "/" ++ baseNameOf drvPath

/-- GC-root registration (source lines 107-114): only with a non-empty
roots directory and a local store; if nothing exists at the computed root
path, `addPermRoot` creates it (recorded in `writes`). -/
def registerRoot (cfg : Config) (drvPath : String) (g : GcState) : GcState :=
  if cfg.gcRootsDir ≠ "" ∧ cfg.hasLocalStore = true then
    if rootPathFor cfg drvPath ∈ g.fs then g
    else { fs := rootPathFor cfg drvPath :: g.fs
           writes := (drvPath, rootPathFor cfg drvPath) :: g.writes }
  else g

/-- Registering a list of derivation paths in order. -/
def gcFold (cfg : Config) (ps : List String) (g : GcState) : GcState :=
  ps.foldl (fun g p => registerRoot cfg p g) g

/-- How many `addPermRoot` writes were performed for a given derivation
path. -/
def countWrites (g : GcState) (p : String) : Nat :=
  (g.writes.filter (fun pr => pr.1 = p)).length

/- ### The walker -/

/-- One logical report entry: a job descriptor or an `error` attribute. -/
inductive Entry where
  | job (jr : JobRecord)
  | error (msg : String)
  deriving DecidableEq

/-- The state threaded through the walk: the report accumulated so far
(an ordered association list, mirroring the JSON object keyed by attribute
path) and the GC state. -/
structure WalkState where
  report : List (String × Entry)
  gc : GcState
  deriving DecidableEq

/-- Append one entry at a path. -/
def addEntry (st : WalkState) (path : String) (e : Entry) : WalkState :=
  { report := st.report ++ [(path, e)], gc := st.gc }

/-- The attribute path of a child: `(attrPath.empty() ? "" : attrPath + ".") + name`. -/
def childPath (path name : String) : String :=
  (if path = "" then "" else path ++ ".") ++ name

/-- A forced value that is neither an attribute set nor null: the shapes
the walker rejects with the `unsupported value` type error. -/
def unsupportedShape : NixValue → Bool
  | .attrs _ _ => false
  | .nullV => false
  | _ => true

/-- The description interpolated into the `unsupported value` message. -/
def describeValue : NixValue → String
  | .attrs _ _ => "a set"
  | .nullV => "null"
  | .boolV b => if b then "true" else "false"
  | .strV s _ => s
  | .otherV d => d

mutual
/-- `findJobsWrapped`: check for interruption, then classify the forced
auto-applied value.  A derivation runs the extractor; on success the GC
root is registered and one entry is recorded at the path.  A non-derivation
attribute set recurses over its children.  Null does nothing.  Anything
else raises the `unsupported value` type error.  Thrown errors are
returned together with the state at the throw point (side effects already
performed are kept). -/
def findJobsWrapped (cfg : Config) (path : String) (v : NixValue) (st : WalkState) :
    Option Err × WalkState :=
  if cfg.interrupted then (some Err.interrupt, st)
  else
    match v with
    | .attrs (some d) children =>
        match evalJob d children with
        | .error e => (some e, st)
        | .ok jr =>
            (none,
             addEntry { report := st.report, gc := registerRoot cfg d.drvPath st.gc }
               path (.job jr))
    | .attrs none children => findJobsChildren cfg path children st
    | .nullV => (none, st)
    | v' => (some (Err.type ("unsupported value: " ++ describeValue v')), st)

/-- The recursion of `findJobsWrapped` over the children of a plain
attribute set.  Each child goes through `findJobs`, i.e. `findJobsWrapped`
with the per-path isolator inlined: a recoverable `EvalError` is converted
into an error entry at the child path and the remaining siblings continue;
fatal errors stop the walk. -/
def findJobsChildren (cfg : Config) (path : String) (l : AttrList) (st : WalkState) :
    Option Err × WalkState :=
  match l with
  | .anil => (none, st)
  | .acons name child tl =>
      match findJobsWrapped cfg (childPath path name) child st with
      | (some (Err.eval m), st') =>
          findJobsChildren cfg path tl (addEntry st' (childPath path name) (.error m))
      | (some e, st') => (some e, st')
      | (none, st') => findJobsChildren cfg path tl st'
end

/-- `findJobs`: run `findJobsWrapped` and catch exactly the recoverable
`EvalError`s, recording them as an `error` entry at the path.  Fatal
errors pass through. -/
def findJobs (cfg : Config) (path : String) (v : NixValue) (st : WalkState) :
    Option Err × WalkState :=
  match findJobsWrapped cfg path v st with
  | (some (Err.eval m), st') => (none, addEntry st' path (.error m))
  | r => r

/-- The report-producing behaviour of `main`: walk the root value at the
empty attribute path with an empty report; the report is serialized to
standard output only when the walk finishes without a fatal error,
otherwise nothing is emitted (the process terminates with a non-zero
status).  The final GC state is returned alongside. -/
def runEvalJobs (cfg : Config) (root : NixValue) (g0 : GcState) :
    Option (List (String × Entry)) × GcState :=
  match findJobs cfg "" root { report := [], gc := g0 } with
  | (none, st) => (some st.report, st.gc)
  | (some _, st) => (none, st.gc)

/- ### Effect characterization of the walker

The walker's control flow never reads the accumulated report or the GC
state, so its behaviour factors into a state-independent effect: the
resulting error, the list of report entries appended, and the sequence of
derivation paths passed to the GC registrar.  The next two definitions
compute that effect; the characterization theorem below proves that the
walker equals this effect applied to any starting state. -/

mutual
/-- The effect of `findJobsWrapped` at a value: (error, entries appended,
derivation paths registered). -/
def wrappedEff (cfg : Config) (path : String) (v : NixValue) :
    Option Err × List (String × Entry) × List String :=
  if cfg.interrupted then (some Err.interrupt, [], [])
  else
    match v with
    | .attrs (some d) children =>
        match evalJob d children with
        | .error e => (some e, [], [])
        | .ok jr => (none, [(path, Entry.job jr)], [d.drvPath])
    | .attrs none children => childrenEff cfg path children
    | .nullV => (none, [], [])
    | v' => (some (Err.type ("unsupported value: " ++ describeValue v')), [], [])

/-- The effect of `findJobsChildren` over an attribute list. -/
def childrenEff (cfg : Config) (path : String) (l : AttrList) :
    Option Err × List (String × Entry) × List String :=
  match l with
  | .anil => (none, [], [])
  | .acons name child tl =>
      match wrappedEff cfg (childPath path name) child with
      | (some (Err.eval m), ents, ps) =>
          match childrenEff cfg path tl with
          | (e2, ents2, ps2) =>
              (e2, ents ++ [(childPath path name, Entry.error m)] ++ ents2, ps ++ ps2)
      | (some e, ents, ps) => (some e, ents, ps)
      | (none, ents, ps) =>
          match childrenEff cfg path tl with
          | (e2, ents2, ps2) => (e2, ents ++ ents2, ps ++ ps2)
end

mutual
/-- Does the walk reach a value that is neither an attribute set nor null?
Derivation nodes are terminal (their attributes are never walked), plain
attribute sets expose all their children, null is fine, and any other
shape is itself unsupported. -/
def reachesUnsupported : NixValue → Bool
  | .attrs (some _) _ => false
  | .attrs none children => reachesUnsupportedL children
  | .nullV => false
  | _ => true

/-- Does some child of an attribute list reach an unsupported value? -/
def reachesUnsupportedL : AttrList → Bool
  | .anil => false
  | .acons _ v tl => reachesUnsupported v || reachesUnsupportedL tl
end

/- ### Spec-side metadata flattening (for the refinement claim about the
metadata stringifier) -/

mutual
/-- Modelled from the spec: the strings contributed by a structural
recursion over a metadata value — a string contributes itself, a list the
flattened form of each element in order, an attribute set the string value
of its `shortName` member if present, anything else nothing. -/
def metaContribSpec : MetaVal → List String
  | .str s => [s]
  | .list xs => metaContribSpecList xs
  | .attrs (.withShort (.str s)) => [s]
  | _ => []

/-- Spec-side flattening of a metadata list. -/
def metaContribSpecList : MetaList → List String
  | .mnil => []
  | .mcons x xs => metaContribSpec x ++ metaContribSpecList xs
end

/-- Is a metadata value a string literal? -/
def isStrMeta : MetaVal → Bool
  | .str _ => true
  | _ => false

mutual
/-- Well-formedness of a metadata value: every `shortName` member that
occurs (at any depth) is a string, so the stringifier's `forceString`
never fails. -/
def metaWf : MetaVal → Bool
  | .list xs => metaWfList xs
  | .attrs (.withShort v) => isStrMeta v
  | _ => true

/-- Well-formedness of each element of a metadata list. -/
def metaWfList : MetaList → Bool
  | .mnil => true
  | .mcons x xs => metaWf x && metaWfList xs
end

/- ### Concrete sample values for witnesses and counterexamples -/

/-- A configuration with GC-root registration disabled and no pending
interruption. -/
def smpCfg : Config := { gcRootsDir := "", hasLocalStore := false, interrupted := false }

/-- A configuration with GC-root registration enabled. -/
def smpCfgGc : Config := { gcRootsDir := "/gcroots", hasLocalStore := true, interrupted := false }

/-- An empty walker state. -/
def smpSt : WalkState := { report := [], gc := { fs := [], writes := [] } }

/-- A well-formed derivation with no metadata, whose `drvPath` differs
from every path in its outputs mapping. -/
def smpDrv : DrvData :=
  { name := "job", system := "x86_64-linux", drvPath := "/nix/store/q.drv",
    outputs := [("out", "/nix/store/p")], meta := [] }

/-- A derivation whose `system` attribute is the `"unknown"` sentinel. -/
def smpDrvUnknown : DrvData :=
  { name := "j", system := "unknown", drvPath := "/nix/store/q.drv",
    outputs := [("out", "/nix/store/p")], meta := [] }

/-- An aggregate-flagged derivation node with two constituent context
tags. -/
def smpAggNode : NixValue :=
  .attrs (some smpDrv)
    (.acons "_hydraAggregate" (.boolV true)
      (.acons "constituents"
        (.strV "/nix/store/b /nix/store/a"
          ["!out!/nix/store/b.drv", "!out!/nix/store/a.drv"]) .anil))

/- ## Helper lemmas -/

theorem gcFold_append (cfg : Config) (ps qs : List String) (g : GcState) :
    gcFold cfg (ps ++ qs) g = gcFold cfg qs (gcFold cfg ps g) := by
  simp [gcFold, List.foldl_append]

mutual
/-- Characterization of `findJobsWrapped`: its error, appended report
entries, and GC registrations are exactly those computed by `wrappedEff`,
uniformly in the starting state. -/
theorem findJobsWrapped_eff (cfg : Config) (path : String) (v : NixValue) (st : WalkState) :
    findJobsWrapped cfg path v st =
      ((wrappedEff cfg path v).1,
       { report := st.report ++ (wrappedEff cfg path v).2.1,
         gc := gcFold cfg (wrappedEff cfg path v).2.2 st.gc }) := by
  by_cases hc : cfg.interrupted
  · rw [findJobsWrapped.eq_def, wrappedEff.eq_def]
    simp [hc, gcFold]
  · cases v with
    | attrs odrv children =>
        cases odrv with
        | some d =>
            rw [findJobsWrapped, wrappedEff]
            simp only [hc, if_false, Bool.false_eq_true]
            cases hev : evalJob d children with
            | error e => simp [gcFold]
            | ok jr => simp [gcFold, addEntry]
        | none =>
            rw [findJobsWrapped, wrappedEff]
            simp only [hc, if_false, Bool.false_eq_true]
            exact findJobsChildren_eff cfg path children st
    | nullV => simp [findJobsWrapped, wrappedEff, hc, gcFold]
    | boolV b => simp [findJobsWrapped, wrappedEff, hc, gcFold]
    | strV s ctx => simp [findJobsWrapped, wrappedEff, hc, gcFold]
    | otherV dsc => simp [findJobsWrapped, wrappedEff, hc, gcFold]

/-- Characterization of `findJobsChildren` by `childrenEff`. -/
theorem findJobsChildren_eff (cfg : Config) (path : String) (l : AttrList) (st : WalkState) :
    findJobsChildren cfg path l st =
      ((childrenEff cfg path l).1,
       { report := st.report ++ (childrenEff cfg path l).2.1,
         gc := gcFold cfg (childrenEff cfg path l).2.2 st.gc }) := by
  cases l with
  | anil => simp [findJobsChildren, childrenEff, gcFold]
  | acons name child tl =>
      rw [findJobsChildren, childrenEff]
      rw [findJobsWrapped_eff cfg (childPath path name) child st]
      rcases hw : wrappedEff cfg (childPath path name) child with ⟨e1, ents1, ps1⟩
      cases e1 with
      | none =>
          dsimp only
          rw [findJobsChildren_eff cfg path tl]
          rcases hc2 : childrenEff cfg path tl with ⟨e2, ents2, ps2⟩
          simp [gcFold_append, List.append_assoc]
      | some e =>
          cases e with
          | eval m =>
              dsimp only [addEntry]
              rw [findJobsChildren_eff cfg path tl]
              rcases hc2 : childrenEff cfg path tl with ⟨e2, ents2, ps2⟩
              simp [gcFold_append, List.append_assoc]
          | type m => simp
          | interrupt => simp
end



mutual
theorem reaches_fatal (cfg : Config) (path : String) (v : NixValue)
    (h : reachesUnsupported v = true) :
    ∃ e, (wrappedEff cfg path v).1 = some e ∧ isFatalErr e = true := by
  by_cases hc : cfg.interrupted
  · refine ⟨Err.interrupt, ?_, rfl⟩
    rw [wrappedEff.eq_def]
    simp [hc]
  · cases v with
    | attrs odrv children =>
        cases odrv with
        | some d => simp [reachesUnsupported] at h
        | none =>
            rw [wrappedEff]
            simp only [hc, if_false, Bool.false_eq_true]
            exact reachesL_fatal cfg path children (by simpa [reachesUnsupported] using h)
    | nullV => simp [reachesUnsupported] at h
    | boolV b =>
        refine ⟨Err.type ("unsupported value: " ++ describeValue (NixValue.boolV b)), ?_, rfl⟩
        simp [wrappedEff, hc]
    | strV s ctx =>
        refine ⟨Err.type ("unsupported value: " ++ describeValue (NixValue.strV s ctx)), ?_, rfl⟩
        simp [wrappedEff, hc]
    | otherV dsc =>
        refine ⟨Err.type ("unsupported value: " ++ describeValue (NixValue.otherV dsc)), ?_, rfl⟩
        simp [wrappedEff, hc]

theorem reachesL_fatal (cfg : Config) (path : String) (l : AttrList)
    (h : reachesUnsupportedL l = true) :
    ∃ e, (childrenEff cfg path l).1 = some e ∧ isFatalErr e = true := by
  cases l with
  | anil => simp [reachesUnsupportedL] at h
  | acons name child tl =>
      rw [childrenEff]
      rcases hw : wrappedEff cfg (childPath path name) child with ⟨e1, ents1, ps1⟩
      rw [reachesUnsupportedL] at h
      rcases Bool.or_eq_true_iff.mp h with hhd | htl
      · obtain ⟨e, he, hf⟩ := reaches_fatal cfg (childPath path name) child hhd
        rw [hw] at he
        simp only at he
        subst he
        cases e with
        | eval m => simp [isFatalErr] at hf
        | type m => refine ⟨Err.type m, by simp, rfl⟩
        | interrupt => refine ⟨Err.interrupt, by simp, rfl⟩
      · obtain ⟨e2, he2, hf2⟩ := reachesL_fatal cfg path tl htl
        rcases hc2 : childrenEff cfg path tl with ⟨e2', ents2, ps2⟩
        rw [hc2] at he2
        simp only at he2
        subst he2
        cases e1 with
        | none => exact ⟨e2, by simp, hf2⟩
        | some e =>
            cases e with
            | eval m => exact ⟨e2, by simp, hf2⟩
            | type m => refine ⟨Err.type m, by simp, rfl⟩
            | interrupt => refine ⟨Err.interrupt, by simp, rfl⟩
end

theorem run_aborts_of_fatal (cfg : Config) (root : NixValue) (g0 : GcState)
    (e : Err) (he : (wrappedEff cfg "" root).1 = some e) (hf : isFatalErr e = true) :
    (runEvalJobs cfg root g0).1 = none := by
  unfold runEvalJobs findJobs
  rw [findJobsWrapped_eff]
  rw [he]
  cases e with
  | eval m => simp [isFatalErr] at hf
  | type m => simp
  | interrupt => simp

theorem run_aborts_of_reaches (cfg : Config) (root : NixValue) (g0 : GcState)
    (h : reachesUnsupported root = true) :
    (runEvalJobs cfg root g0).1 = none := by
  obtain ⟨e, he, hf⟩ := reaches_fatal cfg "" root h
  exact run_aborts_of_fatal cfg root g0 e he hf



theorem unsupportedShape_reaches (v : NixValue) (h : unsupportedShape v = true) :
    reachesUnsupported v = true := by
  cases v <;> simp_all [unsupportedShape, reachesUnsupported]

/-- C1: a forced, auto-applied value that is neither an attribute set nor
null makes the walker raise the fatal `unsupported value` type error; the
per-path isolator of `findJobs` does not catch it (no error entry is
recorded at the path, the state is returned unchanged), and a run over a
tree containing such a node aborts wholly, emitting no report, regardless
of sibling jobs. -/
theorem claimC1 (cfg : Config) (path : String) (v : NixValue) (st : WalkState)
    (hni : cfg.interrupted = false) (hshape : unsupportedShape v = true) :
    findJobsWrapped cfg path v st
        = (some (Err.type ("unsupported value: " ++ describeValue v)), st)
    ∧ findJobs cfg path v st
        = (some (Err.type ("unsupported value: " ++ describeValue v)), st)
    ∧ ∀ name tl g0,
        (runEvalJobs cfg (.attrs none (.acons name v tl)) g0).1 = none := by
  have h1 : findJobsWrapped cfg path v st
      = (some (Err.type ("unsupported value: " ++ describeValue v)), st) := by
    cases v with
    | attrs odrv children => simp [unsupportedShape] at hshape
    | nullV => simp [unsupportedShape] at hshape
    | boolV b => simp [findJobsWrapped, hni]
    | strV s ctx => simp [findJobsWrapped, hni]
    | otherV dsc => simp [findJobsWrapped, hni]
  refine ⟨h1, ?_, ?_⟩
  · unfold findJobs
    rw [h1]
  · intro name tl g0
    apply run_aborts_of_reaches
    simp [reachesUnsupported, reachesUnsupportedL, unsupportedShape_reaches v hshape]

theorem claimC1_witness :
    findJobs smpCfg "p" (.otherV "an integer") smpSt
      = (some (Err.type ("unsupported value: " ++ describeValue (.otherV "an integer"))), smpSt) :=
  (claimC1 smpCfg "p" (.otherV "an integer") smpSt rfl rfl).2.1

/-- C2: the report reaches standard output only when the full traversal
completes without a fatal error.  On cancellation or on a reachable
unsupported value the run emits no report at all; conversely any emitted
report is exactly the accumulated report of a fatal-error-free walk. -/
theorem claimC2 (cfg : Config) (root : NixValue) (g0 : GcState) :
    (cfg.interrupted = true → (runEvalJobs cfg root g0).1 = none)
    ∧ (reachesUnsupported root = true → (runEvalJobs cfg root g0).1 = none)
    ∧ (∀ rep, (runEvalJobs cfg root g0).1 = some rep →
        ∃ st, findJobs cfg "" root { report := [], gc := g0 } = (none, st)
          ∧ rep = st.report) := by
  refine ⟨?_, ?_, ?_⟩
  · intro hi
    apply run_aborts_of_fatal cfg root g0 Err.interrupt
    · rw [wrappedEff.eq_def]
      simp [hi]
    · rfl
  · exact run_aborts_of_reaches cfg root g0
  · intro rep hrep
    unfold runEvalJobs at hrep
    rcases hr : findJobs cfg "" root { report := [], gc := g0 } with ⟨oe, st⟩
    rw [hr] at hrep
    cases oe with
    | none => exact ⟨st, rfl, by simpa using hrep.symm⟩
    | some e => simp at hrep

theorem claimC2_witness :
    (runEvalJobs { gcRootsDir := "", hasLocalStore := false, interrupted := true }
      NixValue.nullV { fs := [], writes := [] }).1 = none :=
  (claimC2 { gcRootsDir := "", hasLocalStore := false, interrupted := true }
    NixValue.nullV { fs := [], writes := [] }).1 rfl




/-- C3: a derivation node whose `system` is `"unknown"`, and an
aggregate-flagged derivation node lacking a `constituents` attribute,
raise recoverable evaluation errors with messages
`derivation must have a ‘system’ attribute` and
`derivation must have a ‘constituents’ attribute` respectively; `findJobs`
catches them at that node's path and records exactly
`Report[path] = error(message)`, and traversal of the remaining sibling
attributes continues from the state extended with that entry. -/
theorem claimC3 (cfg : Config) (path : String) (d : DrvData) (ch : AttrList) (st : WalkState)
    (hni : cfg.interrupted = false) :
    (d.system = "unknown" →
      findJobs cfg path (.attrs (some d) ch) st
        = (none, addEntry st path (.error "derivation must have a ‘system’ attribute")))
    ∧ (∀ lic mnt, d.system ≠ "unknown" →
        queryMetaStrings d.meta "license" = .ok lic →
        queryMetaStrings d.meta "maintainers" = .ok mnt →
        findAttr ch "_hydraAggregate" = some (.boolV true) →
        findAttr ch "constituents" = none →
        findJobs cfg path (.attrs (some d) ch) st
          = (none, addEntry st path (.error "derivation must have a ‘constituents’ attribute")))
    ∧ (∀ ppath name v tl m,
        findJobsWrapped cfg (childPath ppath name) v st = (some (Err.eval m), st) →
        findJobsChildren cfg ppath (.acons name v tl) st
          = findJobsChildren cfg ppath tl
              (addEntry st (childPath ppath name) (.error m))) := by
  refine ⟨?_, ?_, ?_⟩
  · intro hsys
    simp [findJobs, findJobsWrapped, evalJob, hni, hsys]
  · intro lic mnt hsys hlic hmnt hagg hcon
    simp [findJobs, findJobsWrapped, evalJob, aggregateField, forceBool, hni, hsys,
      hlic, hmnt, hagg, hcon]
  · intro ppath name v tl m hv
    rw [findJobsChildren, hv]

theorem claimC3_witness :
    (findJobs smpCfg "a" (.attrs (some smpDrvUnknown) .anil) smpSt
      = (none, addEntry smpSt "a" (.error "derivation must have a ‘system’ attribute")))
    ∧ (findJobs smpCfg "a"
        (.attrs (some smpDrv) (.acons "_hydraAggregate" (.boolV true) .anil)) smpSt
      = (none, addEntry smpSt "a" (.error "derivation must have a ‘constituents’ attribute"))) :=
  ⟨(claimC3 smpCfg "a" smpDrvUnknown .anil smpSt rfl).1 rfl,
   (claimC3 smpCfg "a" smpDrv (.acons "_hydraAggregate" (.boolV true) .anil) smpSt rfl).2.1
     "" "" (by decide) rfl rfl rfl rfl⟩

/-- C7: a node carrying the derivation capability produces exactly one
report entry, recorded at that node's own path, and the walk never
recurses into its attributes (no entries at any child path); recursion
over children happens only for attribute sets without the derivation
capability, visiting the bindings in order with
`childPath = path.isEmpty ? name : path + "." + name`. -/
theorem claimC7 (cfg : Config) (path : String) (st : WalkState) :
    (∀ d ch st', findJobs cfg path (.attrs (some d) ch) st = (none, st') →
      ∃ e, st'.report = st.report ++ [(path, e)])
    ∧ (cfg.interrupted = false → ∀ ch,
        findJobsWrapped cfg path (.attrs none ch) st = findJobsChildren cfg path ch st)
    ∧ (∀ name, childPath path name = if path = "" then name else path ++ "." ++ name) := by
  refine ⟨?_, ?_, ?_⟩
  · intro d ch st' h
    by_cases hc : cfg.interrupted
    · rw [findJobs.eq_def, findJobsWrapped.eq_def] at h
      simp [hc] at h
    · rw [findJobs.eq_def, findJobsWrapped.eq_def] at h
      simp only [hc, if_false, Bool.false_eq_true] at h
      rcases hev : evalJob d ch with e | jr
      · rw [hev] at h
        cases e with
        | eval m =>
            simp only [addEntry, Prod.mk.injEq, true_and] at h
            exact ⟨.error m, by rw [← h]⟩
        | type m => simp at h
        | interrupt => simp at h
      · rw [hev] at h
        simp only [addEntry, Prod.mk.injEq, true_and] at h
        exact ⟨.job jr, by rw [← h]⟩
  · intro hc ch
    rw [findJobsWrapped]
    simp [hc]
  · intro name
    rw [childPath]
    by_cases hp : path = "" <;> simp [hp]

theorem claimC7_witness :
    ∃ e, (addEntry smpSt "x" (.job
      { nixName := "job", system := "x86_64-linux", drvPath := "/nix/store/q.drv",
        description := "", license := "", homepage := "", maintainers := "",
        schedulingPriority := 100, timeout := 36000, maxSilent := 7200,
        isChannel := false, constituents := none,
        outputs := [("out", "/nix/store/p")] })).report
        = smpSt.report ++ [("x", e)] :=
  (claimC7 smpCfg "x" smpSt).1 smpDrv .anil _ rfl

/-- C9: a derivation node whose metadata table has no
`schedulingPriority`, `timeout`, `maxSilent`, or `isHydraChannel` entry is
recorded with the defaults 100, 36000, 7200 and false respectively. -/
theorem claimC9 (cfg : Config) (path : String) (d : DrvData) (ch : AttrList) (st : WalkState)
    (lic mnt : String)
    (hni : cfg.interrupted = false)
    (hsys : d.system ≠ "unknown")
    (hlic : queryMetaStrings d.meta "license" = .ok lic)
    (hmnt : queryMetaStrings d.meta "maintainers" = .ok mnt)
    (hagg : findAttr ch "_hydraAggregate" = none)
    (hsp : lookupMeta d.meta "schedulingPriority" = none)
    (hto : lookupMeta d.meta "timeout" = none)
    (hms : lookupMeta d.meta "maxSilent" = none)
    (hic : lookupMeta d.meta "isHydraChannel" = none) :
    ∃ jr, findJobs cfg path (.attrs (some d) ch) st
        = (none, addEntry { report := st.report, gc := registerRoot cfg d.drvPath st.gc }
            path (.job jr))
      ∧ jr.schedulingPriority = 100 ∧ jr.timeout = 36000 ∧ jr.maxSilent = 7200
      ∧ jr.isChannel = false := by
  refine ⟨{ nixName := d.name, system := d.system, drvPath := d.drvPath,
            description := queryMetaString d.meta "description",
            license := lic, homepage := queryMetaString d.meta "homepage",
            maintainers := mnt,
            schedulingPriority := queryMetaInt d.meta "schedulingPriority" 100,
            timeout := queryMetaInt d.meta "timeout" 36000,
            maxSilent := queryMetaInt d.meta "maxSilent" 7200,
            isChannel := queryMetaBool d.meta "isHydraChannel" false,
            constituents := none, outputs := d.outputs }, ?_, ?_, ?_, ?_, ?_⟩
  · simp [findJobs, findJobsWrapped, evalJob, aggregateField, hni, hsys, hlic, hmnt, hagg]
  · simp [queryMetaInt, hsp]
  · simp [queryMetaInt, hto]
  · simp [queryMetaInt, hms]
  · simp [queryMetaBool, hic]

theorem claimC9_witness :
    ∃ jr, findJobs smpCfg "w" (.attrs (some smpDrv) .anil) smpSt
      = (none, addEntry { report := smpSt.report, gc := registerRoot smpCfg smpDrv.drvPath smpSt.gc }
          "w" (.job jr))
      ∧ jr.schedulingPriority = 100 ∧ jr.timeout = 36000 ∧ jr.maxSilent = 7200
      ∧ jr.isChannel = false :=
  claimC9 smpCfg "w" smpDrv .anil smpSt "" "" rfl (by decide) rfl rfl rfl rfl rfl rfl rfl




theorem mem_setInsert (a x : String) (l : List String) :
    a ∈ setInsert x l ↔ a = x ∨ a ∈ l := by
  induction l with
  | nil => simp [setInsert]
  | cons y ys ih =>
      by_cases h1 : x < y
      · simp [setInsert, h1]
      · by_cases h2 : y < x
        · rw [setInsert, if_neg h1, if_pos h2]
          simp only [List.mem_cons, ih]
          tauto
        · have hxy : x = y := le_antisymm (not_lt.mp h2) (not_lt.mp h1)
          rw [setInsert, if_neg h1, if_neg h2]
          simp [hxy]

theorem sorted_setInsert (x : String) (l : List String) (h : l.Sorted (· < ·)) :
    (setInsert x l).Sorted (· < ·) := by
  induction l with
  | nil => simp [setInsert]
  | cons y ys ih =>
      rw [List.sorted_cons] at h
      by_cases h1 : x < y
      · rw [setInsert, if_pos h1]
        rw [List.sorted_cons]
        refine ⟨?_, ?_⟩
        · intro b hb
          rcases List.mem_cons.mp hb with hb | hb
          · exact hb ▸ h1
          · exact lt_trans h1 (h.1 b hb)
        · rw [List.sorted_cons]
          exact h
      · by_cases h2 : y < x
        · rw [setInsert, if_neg h1, if_pos h2]
          rw [List.sorted_cons]
          refine ⟨?_, ih h.2⟩
          intro b hb
          rcases (mem_setInsert b x ys).mp hb with hb | hb
          · exact hb ▸ h2
          · exact h.1 b hb
        · rw [setInsert, if_neg h1, if_neg h2]
          rw [List.sorted_cons]
          exact h

theorem foldl_agg_mem (ctx : List String) : ∀ (acc : List String) (a : String),
    a ∈ ctx.foldl (fun acc i => if bangTag i then setInsert (stripTag i) acc else acc) acc
      ↔ a ∈ acc ∨ ∃ i, i ∈ ctx ∧ bangTag i = true ∧ stripTag i = a := by
  induction ctx with
  | nil => simp
  | cons t ts ih =>
      intro acc a
      rw [List.foldl_cons]
      by_cases hb : bangTag t
      · rw [if_pos hb, ih, mem_setInsert]
        constructor
        · rintro ((rfl | ha) | ⟨i, hi, hbi, hsi⟩)
          · exact Or.inr ⟨t, List.mem_cons_self t ts, hb, rfl⟩
          · exact Or.inl ha
          · exact Or.inr ⟨i, List.mem_cons_of_mem t hi, hbi, hsi⟩
        · rintro (ha | ⟨i, hi, hbi, hsi⟩)
          · exact Or.inl (Or.inr ha)
          · rcases List.mem_cons.mp hi with rfl | hi
            · exact Or.inl (Or.inl hsi.symm)
            · exact Or.inr ⟨i, hi, hbi, hsi⟩
      · rw [if_neg hb, ih]
        constructor
        · rintro (ha | ⟨i, hi, hbi, hsi⟩)
          · exact Or.inl ha
          · exact Or.inr ⟨i, List.mem_cons_of_mem t hi, hbi, hsi⟩
        · rintro (ha | ⟨i, hi, hbi, hsi⟩)
          · exact Or.inl ha
          · rcases List.mem_cons.mp hi with rfl | hi
            · exact absurd hbi hb
            · exact Or.inr ⟨i, hi, hbi, hsi⟩

theorem foldl_agg_sorted (ctx : List String) : ∀ (acc : List String),
    acc.Sorted (· < ·) →
    (ctx.foldl (fun acc i => if bangTag i then setInsert (stripTag i) acc else acc)
      acc).Sorted (· < ·) := by
  induction ctx with
  | nil => intro acc h; simpa using h
  | cons t ts ih =>
      intro acc h
      rw [List.foldl_cons]
      by_cases hb : bangTag t
      · rw [if_pos hb]
        exact ih _ (sorted_setInsert _ _ h)
      · rw [if_neg hb]
        exact ih _ h

theorem aggregateConstituents_mem (ctx : List String) (a : String) :
    a ∈ aggregateConstituents ctx
      ↔ ∃ i, i ∈ ctx ∧ bangTag i = true ∧ stripTag i = a := by
  rw [aggregateConstituents, foldl_agg_mem]
  simp

theorem aggregateConstituents_sorted (ctx : List String) :
    (aggregateConstituents ctx).Sorted (· < ·) :=
  foldl_agg_sorted ctx [] (by simp)

theorem aggregateConstituents_nodup (ctx : List String) :
    (aggregateConstituents ctx).Nodup :=
  (aggregateConstituents_sorted ctx).nodup

theorem aggregateConstituents_perm (ctx ctx' : List String) (h : ctx.Perm ctx') :
    aggregateConstituents ctx' = aggregateConstituents ctx := by
  haveI : IsAntisymm String (· < ·) := ⟨fun a b hab hba => absurd hba (lt_asymm hab)⟩
  apply List.eq_of_perm_of_sorted ?_ (aggregateConstituents_sorted ctx')
    (aggregateConstituents_sorted ctx)
  refine (List.perm_ext_iff_of_nodup (aggregateConstituents_nodup ctx')
    (aggregateConstituents_nodup ctx)).mpr ?_
  intro a
  rw [aggregateConstituents_mem, aggregateConstituents_mem]
  constructor
  · rintro ⟨i, hi, hbi, hsi⟩
    exact ⟨i, h.mem_iff.mpr hi, hbi, hsi⟩
  · rintro ⟨i, hi, hbi, hsi⟩
    exact ⟨i, h.mem_iff.mp hi, hbi, hsi⟩

theorem tag_data (nm p : String) :
    ("!" ++ nm ++ "!" ++ p).data = '!' :: (nm.data ++ '!' :: p.data) := by
  simp [String.data_append]

theorem stripAfterBang_append (nm p : List Char) (h : ¬ '!' ∈ nm) :
    stripAfterBang (nm ++ '!' :: p) = some p := by
  induction nm with
  | nil => simp [stripAfterBang]
  | cons c cs ih =>
      rw [List.cons_append, stripAfterBang]
      have hc : ¬ c = '!' := fun hc => h (hc ▸ List.mem_cons_self c cs)
      rw [if_neg hc]
      exact ih (fun hm => h (List.mem_cons_of_mem c hm))

theorem bangTag_tag (nm p : String) : bangTag ("!" ++ nm ++ "!" ++ p) = true := by
  rw [bangTag, tag_data]
  simp

theorem stripTag_tag (nm p : String) (h : ¬ '!' ∈ nm.data) :
    stripTag ("!" ++ nm ++ "!" ++ p) = p := by
  rw [stripTag, tag_data]
  dsimp only [List.tail]
  rw [stripAfterBang_append nm.data p.data h]



theorem findJobs_aggregate (cfg : Config) (path : String) (d : DrvData) (ch : AttrList)
    (st : WalkState) (lic mnt s : String) (ctx : List String)
    (hni : cfg.interrupted = false)
    (hsys : d.system ≠ "unknown")
    (hlic : queryMetaStrings d.meta "license" = .ok lic)
    (hmnt : queryMetaStrings d.meta "maintainers" = .ok mnt)
    (hagg : findAttr ch "_hydraAggregate" = some (.boolV true))
    (hcon : findAttr ch "constituents" = some (.strV s ctx)) :
    findJobs cfg path (.attrs (some d) ch) st
      = (none, addEntry { report := st.report, gc := registerRoot cfg d.drvPath st.gc }
          path (.job (aggJobRecord d lic mnt ctx))) := by
  simp [findJobs, findJobsWrapped, evalJob, aggregateField, forceBool, coerceToString,
    aggJobRecord, hni, hsys, hlic, hmnt, hagg, hcon]

/-- C4: for an aggregate-flagged derivation node with a `constituents`
attribute, the recorded `constituents` field is the space-joined set of
paths obtained by taking exactly the context tags starting with `'!'`
(which, under the collaborator contract, have the shape
`!<outputName>!<artifactPath>`) and stripping the `!<outputName>!` part:
membership in the collected set is equivalent to being the artifact path
of some such tag.  A derivation node that is not aggregate-flagged
(attribute absent or false) gets no `constituents` field. -/
theorem claimC4 (cfg : Config) (path : String) (st : WalkState)
    (hni : cfg.interrupted = false) :
    (∀ d ch lic mnt s ctx,
      d.system ≠ "unknown" →
      queryMetaStrings d.meta "license" = .ok lic →
      queryMetaStrings d.meta "maintainers" = .ok mnt →
      findAttr ch "_hydraAggregate" = some (.boolV true) →
      findAttr ch "constituents" = some (.strV s ctx) →
      (∀ t, t ∈ ctx → bangTag t = true →
        ∃ nm q, ¬ '!' ∈ nm.data ∧ t = "!" ++ nm ++ "!" ++ q) →
      ∃ jr, findJobs cfg path (.attrs (some d) ch) st
          = (none, addEntry { report := st.report, gc := registerRoot cfg d.drvPath st.gc }
              path (.job jr))
        ∧ jr.constituents = some (concatStringsSep " " (aggregateConstituents ctx))
        ∧ (∀ q, q ∈ aggregateConstituents ctx
            ↔ ∃ nm, ¬ '!' ∈ nm.data ∧ ("!" ++ nm ++ "!" ++ q) ∈ ctx))
    ∧ (∀ d ch lic mnt,
      d.system ≠ "unknown" →
      queryMetaStrings d.meta "license" = .ok lic →
      queryMetaStrings d.meta "maintainers" = .ok mnt →
      (findAttr ch "_hydraAggregate" = none
        ∨ findAttr ch "_hydraAggregate" = some (.boolV false)) →
      ∃ jr, findJobs cfg path (.attrs (some d) ch) st
          = (none, addEntry { report := st.report, gc := registerRoot cfg d.drvPath st.gc }
              path (.job jr))
        ∧ jr.constituents = none) := by
  constructor
  · intro d ch lic mnt s ctx hsys hlic hmnt hagg hcon hwf
    refine ⟨aggJobRecord d lic mnt ctx,
      findJobs_aggregate cfg path d ch st lic mnt s ctx hni hsys hlic hmnt hagg hcon,
      rfl, ?_⟩
    intro q
    rw [aggregateConstituents_mem]
    constructor
    · rintro ⟨i, hi, hbi, hsi⟩
      obtain ⟨nm, q', hnm, rfl⟩ := hwf i hi hbi
      rw [stripTag_tag nm q' hnm] at hsi
      exact ⟨nm, hnm, hsi ▸ hi⟩
    · rintro ⟨nm, hnm, hmem⟩
      exact ⟨"!" ++ nm ++ "!" ++ q, hmem, bangTag_tag nm q, stripTag_tag nm q hnm⟩
  · intro d ch lic mnt hsys hlic hmnt hagg
    refine ⟨{ nixName := d.name, system := d.system, drvPath := d.drvPath,
              description := queryMetaString d.meta "description",
              license := lic, homepage := queryMetaString d.meta "homepage",
              maintainers := mnt,
              schedulingPriority := queryMetaInt d.meta "schedulingPriority" 100,
              timeout := queryMetaInt d.meta "timeout" 36000,
              maxSilent := queryMetaInt d.meta "maxSilent" 7200,
              isChannel := queryMetaBool d.meta "isHydraChannel" false,
              constituents := none, outputs := d.outputs }, ?_, rfl⟩
    rcases hagg with hagg | hagg <;>
      simp [findJobs, findJobsWrapped, evalJob, aggregateField, forceBool,
        hni, hsys, hlic, hmnt, hagg]

theorem claimC4_witness :
    ∃ jr, findJobs smpCfg "agg" smpAggNode smpSt
        = (none, addEntry { report := smpSt.report,
                            gc := registerRoot smpCfg smpDrv.drvPath smpSt.gc }
            "agg" (.job jr))
      ∧ jr.constituents = some (concatStringsSep " "
          (aggregateConstituents ["!out!/nix/store/b.drv", "!out!/nix/store/a.drv"]))
      ∧ (∀ q, q ∈ aggregateConstituents ["!out!/nix/store/b.drv", "!out!/nix/store/a.drv"]
          ↔ ∃ nm, ¬ '!' ∈ nm.data
              ∧ ("!" ++ nm ++ "!" ++ q) ∈ ["!out!/nix/store/b.drv", "!out!/nix/store/a.drv"]) :=
  (claimC4 smpCfg "agg" smpSt rfl).1 smpDrv _ "" "" "/nix/store/b /nix/store/a"
    ["!out!/nix/store/b.drv", "!out!/nix/store/a.drv"]
    (by decide) rfl rfl rfl rfl
    (by
      intro t ht hb
      rcases List.mem_cons.mp ht with rfl | ht
      · exact ⟨"out", "/nix/store/b.drv", by decide, rfl⟩
      · rcases List.mem_cons.mp ht with rfl | ht
        · exact ⟨"out", "/nix/store/a.drv", by decide, rfl⟩
        · simp at ht)



/-- C10: the constituents of an aggregate are accumulated into an ordered
set before joining: the recorded string joins a list that is sorted by the
lexicographic string order and duplicate-free, whose membership is exactly
the stripped bang-tags of the context, and which is invariant under
permutations of the provenance collection. -/
theorem claimC10 (cfg : Config) (path : String) (st : WalkState)
    (d : DrvData) (ch : AttrList) (lic mnt s : String) (ctx : List String)
    (hni : cfg.interrupted = false)
    (hsys : d.system ≠ "unknown")
    (hlic : queryMetaStrings d.meta "license" = .ok lic)
    (hmnt : queryMetaStrings d.meta "maintainers" = .ok mnt)
    (hagg : findAttr ch "_hydraAggregate" = some (.boolV true))
    (hcon : findAttr ch "constituents" = some (.strV s ctx)) :
    ∃ jr, findJobs cfg path (.attrs (some d) ch) st
        = (none, addEntry { report := st.report, gc := registerRoot cfg d.drvPath st.gc }
            path (.job jr))
      ∧ jr.constituents = some (concatStringsSep " " (aggregateConstituents ctx))
      ∧ (aggregateConstituents ctx).Sorted (· < ·)
      ∧ (aggregateConstituents ctx).Nodup
      ∧ (∀ q, q ∈ aggregateConstituents ctx
          ↔ ∃ i, i ∈ ctx ∧ bangTag i = true ∧ stripTag i = q)
      ∧ (∀ ctx', ctx.Perm ctx' → aggregateConstituents ctx' = aggregateConstituents ctx) :=
  ⟨aggJobRecord d lic mnt ctx,
    findJobs_aggregate cfg path d ch st lic mnt s ctx hni hsys hlic hmnt hagg hcon,
    rfl, aggregateConstituents_sorted ctx, aggregateConstituents_nodup ctx,
    fun q => aggregateConstituents_mem ctx q,
    fun ctx' h => aggregateConstituents_perm ctx ctx' h⟩

theorem claimC10_witness :
    ∃ jr, findJobs smpCfg "agg" smpAggNode smpSt
        = (none, addEntry { report := smpSt.report,
                            gc := registerRoot smpCfg smpDrv.drvPath smpSt.gc }
            "agg" (.job jr))
      ∧ jr.constituents = some (concatStringsSep " "
          (aggregateConstituents ["!out!/nix/store/b.drv", "!out!/nix/store/a.drv"]))
      ∧ (aggregateConstituents ["!out!/nix/store/b.drv", "!out!/nix/store/a.drv"]).Sorted (· < ·)
      ∧ (aggregateConstituents ["!out!/nix/store/b.drv", "!out!/nix/store/a.drv"]).Nodup
      ∧ (∀ q, q ∈ aggregateConstituents ["!out!/nix/store/b.drv", "!out!/nix/store/a.drv"]
          ↔ ∃ i, i ∈ ["!out!/nix/store/b.drv", "!out!/nix/store/a.drv"]
              ∧ bangTag i = true ∧ stripTag i = q)
      ∧ (∀ ctx', List.Perm ["!out!/nix/store/b.drv", "!out!/nix/store/a.drv"] ctx' →
          aggregateConstituents ctx'
            = aggregateConstituents ["!out!/nix/store/b.drv", "!out!/nix/store/a.drv"]) :=
  claimC10 smpCfg "agg" smpSt smpDrv
    (.acons "_hydraAggregate" (.boolV true)
      (.acons "constituents"
        (.strV "/nix/store/b /nix/store/a"
          ["!out!/nix/store/b.drv", "!out!/nix/store/a.drv"]) .anil))
    "" "" "/nix/store/b /nix/store/a" ["!out!/nix/store/b.drv", "!out!/nix/store/a.drv"]
    rfl (by decide) rfl rfl rfl rfl




/-- C5 (amended): the extractor queries the outputs mapping, and it sets
the `drvPath` report field to the derivation's own queried `drvPath`; that
value comes from its own `DrvInfo` query, not from the outputs mapping
(the outputs are reported separately and unchanged under `outputs`). -/
theorem claimC5 (d : DrvData) (ch : AttrList) (jr : JobRecord)
    (h : evalJob d ch = .ok jr) :
    jr.drvPath = d.drvPath ∧ jr.outputs = d.outputs := by
  rw [evalJob] at h
  split at h
  · exact absurd h (by simp)
  · split at h
    · exact absurd h (by simp)
    · split at h
      · exact absurd h (by simp)
      · split at h
        · exact absurd h (by simp)
        · cases h
          exact ⟨rfl, rfl⟩

theorem claimC5_witness :
    ∃ jr, evalJob smpDrv .anil = .ok jr ∧ jr.drvPath = smpDrv.drvPath
      ∧ jr.outputs = smpDrv.outputs :=
  ⟨_, rfl, claimC5 smpDrv .anil _ rfl⟩

/-- C5 counterexample: a concrete derivation whose queried `drvPath` is
`/nix/store/q.drv` while its first (only) output's path is `/nix/store/p`:
the recorded `drvPath` field equals the queried `drvPath` and is not the
first output's containing artifact path, refuting the claim that the
first output's path becomes the `drvPath` report field. -/
theorem claimC5_counterexample :
    findJobs smpCfg "hello" (.attrs (some smpDrv) .anil) smpSt
      = (none, addEntry smpSt "hello" (.job
          { nixName := "job", system := "x86_64-linux", drvPath := "/nix/store/q.drv",
            description := "", license := "", homepage := "", maintainers := "",
            schedulingPriority := 100, timeout := 36000, maxSilent := 7200,
            isChannel := false, constituents := none,
            outputs := [("out", "/nix/store/p")] }))
    ∧ smpDrv.outputs = [("out", "/nix/store/p")]
    ∧ smpDrv.drvPath = "/nix/store/q.drv"
    ∧ ("/nix/store/q.drv" : String) ≠ "/nix/store/p" :=
  ⟨rfl, rfl, rfl, by decide⟩

mutual
theorem metaRec_spec (v : MetaVal) (h : metaWf v = true) :
    metaRec v = .ok (metaContribSpec v) := by
  cases v with
  | str s => rfl
  | int n => rfl
  | boolV b => rfl
  | list xs =>
      rw [metaRec, metaContribSpec]
      exact metaRecList_spec xs (by rwa [metaWf] at h)
  | attrs sh =>
      cases sh with
      | noShort => rfl
      | withShort v' =>
          rw [metaWf] at h
          cases v' with
          | str s => rfl
          | int n => simp [isStrMeta] at h
          | boolV b => simp [isStrMeta] at h
          | list xs => simp [isStrMeta] at h
          | attrs sh' => simp [isStrMeta] at h
          | other => simp [isStrMeta] at h
  | other => rfl

theorem metaRecList_spec (xs : MetaList) (h : metaWfList xs = true) :
    metaRecList xs = .ok (metaContribSpecList xs) := by
  cases xs with
  | mnil => rfl
  | mcons x tl =>
      rw [metaWfList, Bool.and_eq_true] at h
      rw [metaRecList, metaRec_spec x h.1, metaRecList_spec tl h.2, metaContribSpecList]
end

/-- C8: the metadata stringifier flattens by structural recursion — a
string contributes itself, a list each element in order, an attribute set
the forced string of its `shortName` member if present and nothing
otherwise, and any other shape contributes nothing without raising an
error — and returns the comma-space-joined concatenation in traversal
order (the absent-attribute case joins nothing, giving `""`). -/
theorem claimC8 (meta : List (String × MetaVal)) (name : String) (v : MetaVal)
    (hwf : metaWf v = true) :
    metaRec v = .ok (metaContribSpec v)
    ∧ (lookupMeta meta name = some v →
        queryMetaStrings meta name = .ok (concatStringsSep ", " (metaContribSpec v)))
    ∧ (lookupMeta meta name = none →
        queryMetaStrings meta name = .ok "") := by
  refine ⟨metaRec_spec v hwf, ?_, ?_⟩
  · intro hl
    simp [queryMetaStrings, hl, metaRec_spec v hwf]
  · intro hl
    simp [queryMetaStrings, hl]
    rfl

theorem claimC8_witness :
    metaRec (.list (.mcons (.str "MIT")
        (.mcons (.attrs (.withShort (.str "BSD"))) (.mcons .other .mnil))))
      = .ok ["MIT", "BSD"]
    ∧ queryMetaStrings
        [("license", .list (.mcons (.str "MIT")
            (.mcons (.attrs (.withShort (.str "BSD"))) (.mcons .other .mnil))))]
        "license"
      = .ok "MIT, BSD" := by
  have h := claimC8
    [("license", .list (.mcons (.str "MIT")
        (.mcons (.attrs (.withShort (.str "BSD"))) (.mcons .other .mnil))))]
    "license"
    (.list (.mcons (.str "MIT")
        (.mcons (.attrs (.withShort (.str "BSD"))) (.mcons .other .mnil))))
    rfl
  exact ⟨h.1, h.2.1 rfl⟩




theorem registerRoot_fs_mono (cfg : Config) (p x : String) (g : GcState)
    (h : x ∈ g.fs) : x ∈ (registerRoot cfg p g).fs := by
  by_cases hen : cfg.gcRootsDir ≠ "" ∧ cfg.hasLocalStore = true
  · by_cases hex : rootPathFor cfg p ∈ g.fs
    · rw [registerRoot, if_pos hen, if_pos hex]; exact h
    · rw [registerRoot, if_pos hen, if_neg hex]; exact List.mem_cons_of_mem _ h
  · rw [registerRoot, if_neg hen]; exact h

theorem registerRoot_root_mem (cfg : Config) (p : String) (g : GcState)
    (hen : cfg.gcRootsDir ≠ "" ∧ cfg.hasLocalStore = true) :
    rootPathFor cfg p ∈ (registerRoot cfg p g).fs := by
  by_cases hex : rootPathFor cfg p ∈ g.fs
  · rw [registerRoot, if_pos hen, if_pos hex]; exact hex
  · rw [registerRoot, if_pos hen, if_neg hex]; exact List.mem_cons_self _ _

theorem registerRoot_id (cfg : Config) (p : String) (g : GcState)
    (h : cfg.gcRootsDir = "" ∨ ¬ cfg.hasLocalStore = true ∨ rootPathFor cfg p ∈ g.fs) :
    registerRoot cfg p g = g := by
  by_cases hen : cfg.gcRootsDir ≠ "" ∧ cfg.hasLocalStore = true
  · have hex : rootPathFor cfg p ∈ g.fs := by
      rcases h with h | h | h
      · exact absurd h hen.1
      · exact absurd hen.2 h
      · exact h
    rw [registerRoot, if_pos hen, if_pos hex]
  · rw [registerRoot, if_neg hen]

theorem gcFold_fs_mono (cfg : Config) (ps : List String) (x : String) :
    ∀ g : GcState, x ∈ g.fs → x ∈ (gcFold cfg ps g).fs := by
  induction ps with
  | nil => intro g h; exact h
  | cons p tl ih =>
      intro g h
      rw [gcFold, List.foldl_cons]
      exact ih _ (registerRoot_fs_mono cfg p x g h)

theorem gcFold_root_mem (cfg : Config) (ps : List String) (p : String)
    (hen : cfg.gcRootsDir ≠ "" ∧ cfg.hasLocalStore = true) :
    ∀ g : GcState, p ∈ ps → rootPathFor cfg p ∈ (gcFold cfg ps g).fs := by
  induction ps with
  | nil => intro g h; simp at h
  | cons q tl ih =>
      intro g h
      rw [gcFold, List.foldl_cons]
      rcases List.mem_cons.mp h with rfl | h
      · exact gcFold_fs_mono cfg tl _ _ (registerRoot_root_mem cfg p g hen)
      · exact ih _ h

theorem gcFold_id (cfg : Config) (ps : List String) :
    ∀ g : GcState,
    (∀ p, p ∈ ps → cfg.gcRootsDir = "" ∨ ¬ cfg.hasLocalStore = true
      ∨ rootPathFor cfg p ∈ g.fs) →
    gcFold cfg ps g = g := by
  induction ps with
  | nil => intro g _; rfl
  | cons q tl ih =>
      intro g h
      rw [gcFold, List.foldl_cons]
      rw [registerRoot_id cfg q g (h q (List.mem_cons_self q tl))]
      exact ih g (fun p hp => h p (List.mem_cons_of_mem q hp))

theorem gcFold_idem (cfg : Config) (ps : List String) (g : GcState) :
    gcFold cfg ps (gcFold cfg ps g) = gcFold cfg ps g := by
  apply gcFold_id
  intro p hp
  by_cases hen : cfg.gcRootsDir ≠ "" ∧ cfg.hasLocalStore = true
  · exact Or.inr (Or.inr (gcFold_root_mem cfg ps p hen g hp))
  · rcases Decidable.not_and_iff_or_not.mp hen with h | h
    · exact Or.inl (by simpa using h)
    · exact Or.inr (Or.inl h)

theorem registerRoot_inv (cfg : Config) (p : String) (g : GcState)
    (hinv : ∀ pr, pr ∈ g.writes → pr.2 = rootPathFor cfg pr.1 ∧ pr.2 ∈ g.fs)
    (hcnt : ∀ q, countWrites g q ≤ 1) :
    (∀ pr, pr ∈ (registerRoot cfg p g).writes →
      pr.2 = rootPathFor cfg pr.1 ∧ pr.2 ∈ (registerRoot cfg p g).fs)
    ∧ (∀ q, countWrites (registerRoot cfg p g) q ≤ 1) := by
  by_cases h1 : cfg.gcRootsDir ≠ "" ∧ cfg.hasLocalStore = true
  swap
  · rw [registerRoot, if_neg h1]
    exact ⟨hinv, hcnt⟩
  by_cases h2 : rootPathFor cfg p ∈ g.fs
  · rw [registerRoot, if_pos h1, if_pos h2]
    exact ⟨hinv, hcnt⟩
  · rw [registerRoot, if_pos h1, if_neg h2]
    constructor
    · intro pr hpr
      rcases List.mem_cons.mp hpr with rfl | hpr
      · exact ⟨rfl, List.mem_cons_self _ _⟩
      · exact ⟨(hinv pr hpr).1, List.mem_cons_of_mem _ (hinv pr hpr).2⟩
    · intro q
      have hzero : countWrites g p = 0 := by
        rw [countWrites, List.length_eq_zero]
        by_contra hne
        obtain ⟨pr, hpr⟩ := List.exists_mem_of_ne_nil _ hne
        have hmem := List.mem_filter.mp hpr
        have h1' := hinv pr hmem.1
        have : pr.1 = p := by simpa using hmem.2
        exact h2 (this ▸ h1'.1 ▸ h1'.2)
      rw [countWrites] at hzero ⊢
      by_cases hq : q = p
      · subst hq
        rw [List.filter_cons]
        simp only [decide_eq_true_eq, if_pos rfl]
        simp [hzero]
      · rw [List.filter_cons]
        have hne : ¬ ((p, rootPathFor cfg p).1 = q) := fun hh => hq hh.symm
        rw [if_neg (by simpa using hne)]
        exact hcnt q

theorem gcFold_inv (cfg : Config) (ps : List String) :
    ∀ g : GcState,
    (∀ pr, pr ∈ g.writes → pr.2 = rootPathFor cfg pr.1 ∧ pr.2 ∈ g.fs) →
    (∀ q, countWrites g q ≤ 1) →
    ∀ q, countWrites (gcFold cfg ps g) q ≤ 1 := by
  induction ps with
  | nil => intro g _ hcnt q; exact hcnt q
  | cons p tl ih =>
      intro g hinv hcnt q
      rw [gcFold, List.foldl_cons]
      obtain ⟨hinv', hcnt'⟩ := registerRoot_inv cfg p g hinv hcnt
      exact ih _ hinv' hcnt' q

theorem findJobs_gc (cfg : Config) (path : String) (v : NixValue) (st : WalkState) :
    (findJobs cfg path v st).2.gc = gcFold cfg (wrappedEff cfg path v).2.2 st.gc := by
  rw [findJobs]
  rw [findJobsWrapped_eff]
  rcases (wrappedEff cfg path v).1 with _ | e
  · rfl
  · cases e <;> rfl



/-- C6: GC-root registration happens only when the configured root
directory is non-empty, the store is local, and no filesystem object
exists yet at `rootDir + "/" + basename(drvPath)`; across a whole run
started with an empty write log every derivation path receives at most
one `addPermRoot` write, and re-running the identical walk on the
resulting store performs zero new GC-root writes (the GC state is a fixed
point). -/
theorem claimC6 (cfg : Config) (root : NixValue) (g0fs : List String) :
    (∀ p g, (cfg.gcRootsDir = "" ∨ ¬ cfg.hasLocalStore = true
        ∨ rootPathFor cfg p ∈ g.fs) → registerRoot cfg p g = g)
    ∧ (∀ p g, registerRoot cfg p g ≠ g →
        rootPathFor cfg p = cfg.gcRootsDir ++ "/" ++ baseNameOf p
        ∧ cfg.gcRootsDir ≠ "" ∧ cfg.hasLocalStore = true
        ∧ rootPathFor cfg p ∉ g.fs)
    ∧ (∀ p, countWrites (findJobs cfg "" root
        { report := [], gc := { fs := g0fs, writes := [] } }).2.gc p ≤ 1)
    ∧ ((findJobs cfg "" root
          { report := [],
            gc := (findJobs cfg "" root
              { report := [], gc := { fs := g0fs, writes := [] } }).2.gc }).2.gc
        = (findJobs cfg "" root
            { report := [], gc := { fs := g0fs, writes := [] } }).2.gc) := by
  refine ⟨registerRoot_id cfg, ?_, ?_, ?_⟩
  · intro p g hne
    refine ⟨rfl, ?_, ?_, ?_⟩
    · intro h
      exact hne (registerRoot_id cfg p g (Or.inl h))
    · by_contra h
      exact hne (registerRoot_id cfg p g (Or.inr (Or.inl h)))
    · intro h
      exact hne (registerRoot_id cfg p g (Or.inr (Or.inr h)))
  · intro p
    rw [findJobs_gc]
    apply gcFold_inv
    · intro pr hpr
      simp at hpr
    · intro q
      simp [countWrites]
  · rw [findJobs_gc, findJobs_gc]
    exact gcFold_idem cfg _ _

theorem claimC6_witness :
    (registerRoot smpCfg "/nix/store/q.drv" { fs := [], writes := [] }
      = { fs := [], writes := [] })
    ∧ countWrites (findJobs smpCfgGc "" smpAggNode
        { report := [], gc := { fs := [], writes := [] } }).2.gc "/nix/store/q.drv" ≤ 1 :=
  ⟨(claimC6 smpCfg .nullV []).1 "/nix/store/q.drv" { fs := [], writes := [] } (Or.inl rfl),
   (claimC6 smpCfgGc smpAggNode []).2.2.1 "/nix/store/q.drv"⟩


end HydraEvalJobs
